import Mathlib

/-!
Shallow embedding of the Julia tag scanner (`julia.c`) and proofs about it.

Lines of input are modelled as `List Char` (the C code works on NUL-terminated
byte strings; the end of the list plays the role of the terminating NUL).
`vString` buffers are modelled as `List Char`, `stringList` as
`List (List Char)`.  Cursor advancement (`const unsigned char** s`) is
modelled by returning the remaining suffix of the line; a matcher that
"leaves the cursor unchanged" returns `none`.
-/

namespace Julia

/-- C `isspace` in the default locale (space, tab, newline, vertical tab,
form feed, carriage return). -/
def isspace (c : Char) : Bool :=
  c = ' ' || c = '\t' || c = '\n' || c = '\x0b' || c = '\x0c' || c = '\r'

/-- The token-boundary test of `canMatch` (julia.c:96): the character right
after the literal must be the terminating NUL (here: end of list),
whitespace, or an opening parenthesis. -/
def tokenBoundary : List Char → Bool
  | [] => true
  | c :: _ => isspace c || c = '('

/-- julia.c:87 `canMatch`: attempts to advance past `lit`.  Succeeds when the
literal occurs at the cursor (`strncmp`) and the next character is a token
boundary; on success the returned suffix is the cursor advanced exactly past
the literal, on failure the result is `none` (cursor unchanged). -/
def canMatch (cs : List Char) (lit : List Char) : Option (List Char) :=
  if cs.take lit.length = lit ∧ tokenBoundary (cs.drop lit.length) = true then
    some (cs.drop lit.length)
  else
    none

/-- julia.c:31 `juliaKind`. -/
inductive juliaKind where
  | K_UNDEFINED
  | K_METHOD
  | K_CLASS
  | K_MODULE
  | K_SINGLETON
  | K_DESCRIBE
  | K_CONTEXT
  | K_MACRO
  | K_TYPE
  | K_IMMU
deriving DecidableEq, Repr

open juliaKind

/-- An entry of the `JuliaKinds` table (julia.c:38): letter, singular and
plural name. -/
structure kindOption where
  letter : Char
  name : String
  plural : String
deriving DecidableEq, Repr

/-- julia.c:38 `JuliaKinds` lookup table, indexed by kind.  The C array is
never indexed with `K_UNDEFINED` (emission is guarded); we return a dummy
entry for it. -/
def JuliaKinds : juliaKind → kindOption
  | K_UNDEFINED => ⟨'?', "undefined", "undefined"⟩
  | K_METHOD => ⟨'f', "function", "functions"⟩
  | K_CLASS => ⟨'c', "class", "classes"⟩
  | K_MODULE => ⟨'m', "module", "modules"⟩
  | K_SINGLETON => ⟨'F', "singleton method", "singleton methods"⟩
  | K_DESCRIBE => ⟨'d', "describe", "describes"⟩
  | K_CONTEXT => ⟨'C', "context", "contexts"⟩
  | K_MACRO => ⟨'M', "macro", "macros"⟩
  | K_TYPE => ⟨'t', "type", "types"⟩
  | K_IMMU => ⟨'i', "immutable", "immutables"⟩

/-- `stringListAdd` of the framework: appends one item at the end of the
list (`stringListLast` / `stringListRemoveLast` operate on that end). -/
def stringListAdd (list : List (List Char)) (item : List Char) : List (List Char) :=
  list ++ [item]

/-- `stringListRemoveLast` of the framework: drops the most recently added
item.  In julia.c it is only ever called under a `stringListCount > 0`
guard (line 417). -/
def stringListRemoveLast (list : List (List Char)) : List (List Char) :=
  list.dropLast

/-- julia.c:64 `stringListToScope`: joins the non-empty chunks of the
nesting list with dots (the `chunks_output` counter in C implements exactly
an intercalation over the non-empty chunks). -/
def stringListToScope (list : List (List Char)) : List Char :=
  List.intercalate ['.'] (list.filter fun chunk => 0 < chunk.length)

/-- julia.c:163 `charIsIn` (`strchr`). -/
def charIsIn (ch : Char) (list : List Char) : Bool :=
  list.contains ch

/-- julia.c:169 `skipWhitespace`. -/
def skipWhitespace (cs : List Char) : List Char :=
  cs.dropWhile isspace

/-- julia.c:110 `julia_OPERATORS`, in source order.  The last entry is the
backquote character (code 96). -/
def julia_OPERATORS : List (List Char) :=
  [("[]").toList, ("[]=").toList,
   ("**").toList,
   ("!").toList, ("~").toList, ("+@").toList, ("-@").toList,
   ("*").toList, ("/").toList, ("%").toList,
   ("+").toList, ("-").toList,
   (">>").toList, ("<<").toList,
   ("&").toList,
   ("^").toList, ("|").toList,
   ("<=").toList, ("<").toList, (">").toList, (">=").toList,
   ("<=>").toList, ("==").toList, ("===").toList, ("!=").toList,
   ("=~").toList, ("!~").toList,
   [Char.ofNat 96]]

/-- The scanning loop of `parseJuliaOperator` (julia.c:125): tries each
operator in order with `canMatch`; on the first success appends the operator
text to `name` and returns the advanced cursor. -/
def tryOperators : List (List Char) → List Char → List Char → Option (List Char × List Char)
  | [], _, _ => none
  | op :: ops, name, cs =>
    match canMatch cs op with
    | some rest => some (name ++ op, rest)
    | none => tryOperators ops name cs

/-- julia.c:108 `parseJuliaOperator`. -/
def parseJuliaOperator (name : List Char) (cs : List Char) : Option (List Char × List Char) :=
  tryOperators julia_OPERATORS name cs

/-- julia.c:189 the per-kind `also_ok` character set of `parseIdentifier`.
For describe/context the C string literal lists space, comma, double quote,
dot, hash, underscore, question mark, exclamation mark, equals, apostrophe,
slash and minus (note that it contains a dot).  The apostrophe is written
below as character code 39. -/
def also_ok (kind : juliaKind) : List Char :=
  if kind = K_METHOD then
    ['_', '.', '?', '!', '=']
  else if kind = K_DESCRIBE ∨ kind = K_CONTEXT then
    [' ', ',', '"', '.', '#', '_', '?', '!', '=', Char.ofNat 39, '/', '-']
  else
    ['_']

/-- Result of the character-copying loop of `parseIdentifier`
(julia.c:221-244): either the identifier is complete (`done name rest`), or
a dot was seen while parsing a `K_METHOD` name and the whole parse restarts
after the dot as a singleton method (`redirect rest`, with the name built so
far discarded, julia.c:231-236). -/
inductive loopResult where
  | done : List Char → List Char → loopResult
  | redirect : List Char → loopResult
deriving DecidableEq, Repr

/-- The copy loop of julia.c:221-244.  A character is consumed while it is
alphanumeric or in `ok`; for `K_METHOD` a consumed dot redirects to a
singleton re-parse and a consumed `?`, `!` or `=` ends the name. -/
def parseIdLoop (kind : juliaKind) (ok : List Char) : List Char → List Char → loopResult
  | [], name => .done name []
  | c :: cs, name =>
    if c.isAlphanum || charIsIn c ok then
      if kind = K_METHOD then
        if c = '.' then
          .redirect cs
        else if charIsIn c ['?', '!', '='] then
          .done (name ++ [c]) cs
        else
          parseIdLoop kind ok cs (name ++ [c])
      else
        parseIdLoop kind ok cs (name ++ [c])
    else
      .done name (c :: cs)

/-- One pass of julia.c:181 `parseIdentifier`, without the singleton
re-parse: whitespace skip, the `class << HTTP` check, the operator attempt,
then the copy loop. -/
inductive idStep where
  | ok : juliaKind → List Char → List Char → idStep
  | redir : List Char → idStep
deriving DecidableEq, Repr

/-- Single pass of `parseIdentifier` (julia.c:181-246).  Returns the kind,
the extracted name and the advanced cursor, or a redirection request when a
dot was found inside a `K_METHOD` name. -/
def parseIdentifierStep (kind : juliaKind) (cs : List Char) : idStep :=
  let cs := skipWhitespace cs
  if kind = K_CLASS ∧ cs.take 2 = ['<', '<'] then
    .ok K_UNDEFINED [] cs
  else
    let opRes :=
      if kind = K_METHOD ∨ kind = K_SINGLETON then parseJuliaOperator [] cs else none
    match opRes with
    | some (name, rest) => .ok kind name rest
    | none =>
      match parseIdLoop kind (also_ok kind) cs [] with
      | .done name rest => .ok kind name rest
      | .redirect rest => .redir rest

/-- julia.c:181 `parseIdentifier`.  The C function recurses on itself at
julia.c:235 with kind `K_SINGLETON` and a cleared name; a singleton pass
never redirects again (the dot redirection is guarded by `kind == K_METHOD`,
see `parseIdLoop_of_ne_method`), so the recursion is unrolled to a single
extra pass here; the final fallback branch is unreachable. -/
def parseIdentifier (kind : juliaKind) (cs : List Char) : juliaKind × List Char × List Char :=
  match parseIdentifierStep kind cs with
  | .ok k name rest => (k, name, rest)
  | .redir rest =>
    match parseIdentifierStep K_SINGLETON rest with
    | .ok k name rest2 => (k, name, rest2)
    | .redir rest2 => (K_SINGLETON, [], rest2)

/-- The tag record built by julia.c:139 `emitJuliaTag`: name, kind, and the
scope string computed from the nesting list.  (The C code also copies the
kind letter and kind name out of `JuliaKinds`; those are recovered from
`kind` via `JuliaKinds` where a claim needs them.) -/
structure tagEntryInfo where
  name : List Char
  kind : juliaKind
  scope : List Char
deriving DecidableEq, Repr

/-- julia.c:139 `emitJuliaTag`: builds the tag from the scope of the
*current* nesting, and only afterwards adds `name` to the nesting list.
Returns the emitted tag and the updated nesting list. -/
def emitJuliaTag (name : List Char) (kind : juliaKind) (nesting : List (List Char)) :
    tagEntryInfo × List (List Char) :=
  let scope := stringListToScope nesting
  (⟨name, kind, scope⟩, stringListAdd nesting name)

/-- julia.c:248 `readAndEmitTag`: only attempts a name parse when the
character under the cursor is whitespace; drops the parse silently when the
kind came back `K_UNDEFINED` or the name is empty.  Returns the advanced
cursor, the updated nesting list and the emitted tags (zero or one). -/
def readAndEmitTag (kind : juliaKind) (cs : List Char) (nesting : List (List Char)) :
    List Char × List (List Char) × List tagEntryInfo :=
  match cs with
  | [] => ([], nesting, [])
  | c :: cs' =>
    if isspace c then
      match parseIdentifier kind (c :: cs') with
      | (actual, name, rest) =>
        if actual = K_UNDEFINED ∨ name = [] then
          (rest, nesting, [])
        else
          match emitJuliaTag name actual nesting with
          | (tag, nesting') => (rest, nesting', [tag])
    else
      (c :: cs', nesting, [])

/-- julia.c:285 `enterUnnamedScope`: pushes an empty chunk. -/
def enterUnnamedScope (nesting : List (List Char)) : List (List Char) :=
  stringListAdd nesting []

/-- Tries `canMatch` against each literal in order, mirroring a C
short-circuit chain of `canMatch` calls (julia.c:341-351, 413). -/
def matchFirst : List (List Char) → List Char → Option (List Char)
  | [], _ => none
  | lit :: lits, cs =>
    match canMatch cs lit with
    | some rest => some rest
    | none => matchFirst lits cs

/-- The line-start anonymous-scope keywords of julia.c:341-351, in source
order. -/
def anonKeywords : List (List Char) :=
  [("case").toList, ("for").toList, ("if").toList, ("unless").toList,
   ("quote").toList, ("let").toList, ("begin").toList, ("catch").toList,
   ("while").toList]

/-- The definition keywords of julia.c:360-391 with their kinds, in source
order. -/
def defKeywords : List (List Char × juliaKind) :=
  [(("function").toList, K_METHOD),
   (("class").toList, K_CLASS),
   (("module").toList, K_MODULE),
   (("describe").toList, K_DESCRIBE),
   (("context").toList, K_CONTEXT),
   (("macro").toList, K_MACRO),
   (("type").toList, K_TYPE),
   (("immutable").toList, K_IMMU)]

/-- The else-if chain over the definition keywords (julia.c:360-391). -/
def matchDefKeyword : List (List Char × juliaKind) → List Char → Option (juliaKind × List Char)
  | [], _ => none
  | (lit, kind) :: rest, cs =>
    match canMatch cs lit with
    | some cs' => some (kind, cs')
    | none => matchDefKeyword rest cs

/-- The remainder scan of a line, julia.c:393-438.  `post = false` runs the
full branch chain of an iteration (comment flag and whitespace skip, `#`,
`begin` and `do`, `end`); `post = true` runs only the tail of the chain (the
string-literal skip and the opaque-token skip), which is reached either when
no keyword matched at the cursor, or when `end` matched with an empty
nesting list (the C `&&` has already advanced the cursor in that case).
The structural recursion uses fuel; every iteration either consumes a
character or moves from the full chain to its tail, so `2 * length + 1`
fuel (supplied by `processLine`) is never exhausted. -/
def scanRestF (mlc : Bool) : Nat → Bool → List (List Char) → List Char → List (List Char)
  | 0, _, nesting, _ => nesting
  | _ + 1, _, nesting, [] => nesting
  | fuel + 1, false, nesting, c :: cs =>
    if mlc || isspace c then
      scanRestF mlc fuel false nesting cs
    else if c = '#' then
      nesting
    else
      match matchFirst [("begin").toList, ("do").toList] (c :: cs) with
      | some rest => scanRestF mlc fuel false (enterUnnamedScope nesting) rest
      | none =>
        match canMatch (c :: cs) (("end").toList) with
        | some rest =>
          if 0 < nesting.length then
            scanRestF mlc fuel false (stringListRemoveLast nesting) rest
          else
            scanRestF mlc fuel true nesting rest
        | none => scanRestF mlc fuel true nesting (c :: cs)
  | fuel + 1, true, nesting, c :: cs =>
    if c = '"' then
      scanRestF mlc fuel false nesting (cs.dropWhile fun d => d ≠ '"')
    else
      scanRestF mlc fuel false nesting (cs.dropWhile fun d => d.isAlphanum || d = '_')

/-- The per-file scanner state of julia.c:290 `findJuliaTags`: the `nesting`
string list, the `inMultiLineComment` flag, and the tags emitted so far (in
emission order; the C code emits them through `makeTagEntry`). -/
structure ScanState where
  nesting : List (List Char)
  inMLC : Bool
  tags : List tagEntryInfo
deriving DecidableEq, Repr

/-- Processing of one line in the loop of julia.c:307-438. -/
def processLine (st : ScanState) (line : List Char) : ScanState :=
  match canMatch line (("=begin").toList) with
  | some _ => { st with inMLC := true }
  | none =>
    match canMatch line (("=end").toList) with
    | some _ => { st with inMLC := false }
    | none =>
      let cp := skipWhitespace line
      match matchFirst anonKeywords cp with
      | opened =>
        let cp := opened.getD cp
        let nesting := if opened.isSome then enterUnnamedScope st.nesting else st.nesting
        match matchDefKeyword defKeywords cp with
        | some (kind, cp') =>
          match readAndEmitTag kind cp' nesting with
          | (cp'', nesting', newTags) =>
            { nesting := scanRestF st.inMLC (2 * cp''.length + 1) false nesting' cp'',
              inMLC := st.inMLC,
              tags := st.tags ++ newTags }
        | none =>
          { nesting := scanRestF st.inMLC (2 * cp.length + 1) false nesting cp,
            inMLC := st.inMLC,
            tags := st.tags }

/-- julia.c:290 `findJuliaTags`: starts with an empty nesting list and the
comment flag off, and processes the lines in order.  The final state (the
emitted tags, plus the internal nesting list and flag) is returned. -/
def findJuliaTags (lines : List (List Char)) : ScanState :=
  lines.foldl processLine ⟨[], false, []⟩

/-- The stack effect of one recognized `end` token (julia.c:417-422): the
most recent scope is removed only when the nesting list is non-empty. -/
def applyEnds : Nat → List (List Char) → List (List Char)
  | 0, nesting => nesting
  | n + 1, nesting =>
    applyEnds n (if 0 < nesting.length then stringListRemoveLast nesting else nesting)

/-! ### Helper lemmas -/

theorem take_append_self (l t : List Char) : (l ++ t).take l.length = l := by
  induction l with
  | nil => simp
  | cons a l ih => simp [ih]

theorem drop_append_self (l t : List Char) : (l ++ t).drop l.length = t := by
  induction l with
  | nil => simp
  | cons a l ih => simp [ih]

theorem canMatch_eq_some {cs lit rest : List Char} (h : canMatch cs lit = some rest) :
    cs = lit ++ rest ∧ tokenBoundary rest = true := by
  unfold canMatch at h
  split at h
  case isTrue hc =>
    obtain ⟨ht, hb⟩ := hc
    obtain rfl : cs.drop lit.length = rest := Option.some.injEq .. ▸ h
    exact ⟨by conv_lhs => rw [← List.take_append_drop lit.length cs, ht], hb⟩
  case isFalse => exact absurd h (by simp)

theorem canMatch_append (lit rest : List Char) (hb : tokenBoundary rest = true) :
    canMatch (lit ++ rest) lit = some rest := by
  unfold canMatch
  rw [take_append_self, drop_append_self, if_pos ⟨rfl, hb⟩]

theorem canMatch_head_ne (c l : Char) (cs ls : List Char) (h : c ≠ l) :
    canMatch (c :: cs) (l :: ls) = none := by
  unfold canMatch
  rw [if_neg]
  rintro ⟨h1, -⟩
  rw [List.length_cons, List.take_succ_cons] at h1
  exact h (List.cons.injEq .. ▸ h1).1

theorem parseIdLoop_of_ne_method (kind : juliaKind) (hk : kind ≠ K_METHOD)
    (ok : List Char) :
    ∀ cs name : List Char,
      parseIdLoop kind ok cs name =
        loopResult.done (name ++ cs.takeWhile fun c => c.isAlphanum || charIsIn c ok)
          (cs.dropWhile fun c => c.isAlphanum || charIsIn c ok) := by
  intro cs
  induction cs with
  | nil => intro name; simp [parseIdLoop]
  | cons c cs ih =>
    intro name
    by_cases hc : (c.isAlphanum || charIsIn c ok) = true
    · simp [parseIdLoop, hc, hk, List.takeWhile_cons, List.dropWhile_cons, ih]
    · simp [parseIdLoop, hc, List.takeWhile_cons, List.dropWhile_cons]

theorem parseIdentifierStep_no_redir (kind : juliaKind) (hk : kind ≠ K_METHOD)
    (cs : List Char) :
    ∃ k name rest, parseIdentifierStep kind cs = idStep.ok k name rest := by
  simp only [parseIdentifierStep]
  by_cases hcls : kind = K_CLASS ∧ (skipWhitespace cs).take 2 = ['<', '<']
  · exact ⟨_, _, _, by rw [if_pos hcls]⟩
  · rw [if_neg hcls]
    cases hop : (if kind = K_METHOD ∨ kind = K_SINGLETON then
        parseJuliaOperator [] (skipWhitespace cs) else none) with
    | some nr =>
      obtain ⟨name, rest⟩ := nr
      exact ⟨_, _, _, rfl⟩
    | none =>
      rw [parseIdLoop_of_ne_method kind hk]
      exact ⟨_, _, _, rfl⟩

theorem foldl_stringListAdd_length :
    ∀ (names : List (List Char)) (st : List (List Char)),
      (names.foldl stringListAdd st).length = st.length + names.length := by
  intro names
  induction names with
  | nil => intro st; simp
  | cons n ns ih =>
    intro st
    rw [List.foldl_cons, ih]
    simp [stringListAdd]
    omega

theorem applyEnds_length_of_le :
    ∀ (n : Nat) (st : List (List Char)), n ≤ st.length →
      (applyEnds n st).length = st.length - n := by
  intro n
  induction n with
  | zero => intro st _; simp [applyEnds]
  | succ n ih =>
    intro st h
    have hpos : 0 < st.length := Nat.lt_of_lt_of_le (Nat.succ_pos n) h
    rw [applyEnds, if_pos hpos, ih]
    · simp [stringListRemoveLast, List.length_dropLast]
      omega
    · simp [stringListRemoveLast, List.length_dropLast]
      omega

/-! ### Claim theorems -/

/-- C1: scanning the six example lines emits exactly the tags `Foo` (kind
`K_MODULE`, i.e. "module", scope empty), `Bar` (kind `K_CLASS`, i.e.
"class", scope "Foo") and `baz` (kind `K_METHOD`, i.e. "function", scope
"Foo.Bar"), in this order; and in general `emitJuliaTag` computes a tag's
scope from the nesting list before pushing the tag's own name onto it, so
the scope lists only the enclosing named scopes, excluding the entry being
defined. -/
theorem nested_scope_example :
  (findJuliaTags
      [("module Foo").toList, ("  class Bar").toList, ("    function baz").toList,
       ("    end").toList, ("  end").toList, ("end").toList]).tags =
    [⟨("Foo").toList, K_MODULE, []⟩,
     ⟨("Bar").toList, K_CLASS, ("Foo").toList⟩,
     ⟨("baz").toList, K_METHOD, ("Foo.Bar").toList⟩]
  ∧ (JuliaKinds K_MODULE).name = "module"
  ∧ (JuliaKinds K_CLASS).name = "class"
  ∧ (JuliaKinds K_METHOD).name = "function"
  ∧ (∀ (name : List Char) (kind : juliaKind) (nesting : List (List Char)),
      (emitJuliaTag name kind nesting).1.scope = stringListToScope nesting
      ∧ (emitJuliaTag name kind nesting).2 = stringListAdd nesting name) :=
  ⟨by decide, rfl, rfl, rfl, fun name kind nesting => ⟨rfl, rfl⟩⟩

/-- C3 counterexample: in the line consisting of a complete string literal
followed by `end`, the `end` does *not* pop the (non-empty) scope stack:
after `module Foo` pushes one scope, the claim predicts the `end` of the
second line leaves the nesting list empty, but the scanner leaves it
non-empty (the closing quote of the string restarts the string-skipping
branch, which swallows the `end`). -/
theorem string_line_end_not_popped :
  (findJuliaTags [("module Foo").toList, ("\"s\" end").toList]).nesting ≠ [] := by
  decide

/-- C3 amended: a double-quote begins a string-literal skip that stops *at*
the next double-quote (or consumes the rest of the line); the closing quote
itself then begins another string-literal skip, so a token following the
closing quote of a complete string literal on the same line is swallowed
and not processed: scanning `module Foo` and then a line with `"s" end`
leaves the scope `Foo` still on the stack and emits only the `Foo` tag. -/
theorem string_skip_swallows_following_token :
  findJuliaTags [("module Foo").toList, ("\"s\" end").toList] =
    ⟨[("Foo").toList], false, [⟨("Foo").toList, K_MODULE, []⟩]⟩ := by
  decide

/-- C4: operator method names are matched whole: `function [](key)` yields
exactly the tag `[]`, `function []=(key, val)` yields exactly the tag `[]=`
(not truncated to `[]`), and `function <=>(a, b)` yields exactly the tag
`<=>` (not `<=` or `<`), all of kind `K_METHOD` ("function"). -/
theorem operator_longest_match :
  (findJuliaTags [("function [](key)").toList]).tags = [⟨("[]").toList, K_METHOD, []⟩]
  ∧ (findJuliaTags [("function []=(key, val)").toList]).tags =
      [⟨("[]=").toList, K_METHOD, []⟩]
  ∧ (findJuliaTags [("function <=>(a, b)").toList]).tags =
      [⟨("<=>").toList, K_METHOD, []⟩] :=
  ⟨by decide, by decide, by decide⟩

/-- C6 counterexample: for the describe kind, a dot does *not* terminate the
extracted name (the claim's allowed-character set omits the dot, but the
source's `also_ok` string contains it): `describe Foo.bar` produces the tag
name `Foo.bar`, which contains the dot the claim says would have ended the
name at `Foo`. -/
theorem describe_name_keeps_dot :
  (findJuliaTags [("describe Foo.bar").toList]).tags =
    [⟨("Foo.bar").toList, K_DESCRIBE, []⟩]
  ∧ '.' ∈ ("Foo.bar").toList :=
  ⟨by decide, by decide⟩

/-- C9: while the in-multiline-comment flag is set, line-start keyword tests
still run: a `function` line inside `=begin`/`=end` still emits a tag, an
`if` line still pushes an anonymous scope, and the flag only makes the
remainder scan skip every character (so an `end` line inside the comment
pops nothing). -/
theorem multiline_comment_keyword_tests_still_run :
  findJuliaTags
      [("=begin").toList, ("function foo").toList, ("if x").toList,
       ("end").toList, ("=end").toList] =
    ⟨[("foo").toList, []], false, [⟨("foo").toList, K_METHOD, []⟩]⟩ := by
  decide

/-- C10: a definition keyword immediately followed by `(` matches as a
whole token (`(` is a legal token boundary), but `readAndEmitTag` only
attempts name extraction when the character after the keyword is
whitespace, so the line `function(x)` produces no tag and pushes no scope. -/
theorem def_keyword_paren_no_tag :
  canMatch (("function(x)").toList) (("function").toList) = some (("(x)").toList)
  ∧ findJuliaTags [("function(x)").toList] = ⟨[], false, []⟩ :=
  ⟨by decide, by decide⟩

/-- C2: `canMatch` succeeds exactly when the literal occurs at the cursor
and the character immediately after it is end-of-line, whitespace or `(`;
on success it returns the cursor advanced exactly past the literal, and
`some (cs.drop lit.length)` and `none` are its only possible results (a
`none` result models the unchanged cursor); in particular matching the
keyword `for` against `format(x)` fails. -/
theorem canMatch_whole_token :
  (∀ lit cs : List Char,
      (canMatch cs lit = some (cs.drop lit.length) ↔
        (∃ t, cs = lit ++ t) ∧ tokenBoundary (cs.drop lit.length) = true)
      ∧ (canMatch cs lit = some (cs.drop lit.length) ∨ canMatch cs lit = none))
  ∧ canMatch (("format(x)").toList) (("for").toList) = none := by
  constructor
  · intro lit cs
    constructor
    · constructor
      · intro h
        obtain ⟨hcs, hb⟩ := canMatch_eq_some h
        exact ⟨⟨cs.drop lit.length, hcs⟩, hb⟩
      · rintro ⟨⟨t, rfl⟩, hb⟩
        unfold canMatch
        rw [if_pos ⟨take_append_self lit t, hb⟩]
    · unfold canMatch
      split
      · exact Or.inl rfl
      · exact Or.inr rfl
  · decide

/-- C5: while parsing a `K_METHOD` name, a consumed dot discards the name
built so far and re-parses the rest of the input from after the dot as a
`K_SINGLETON` method, and this reclassification happens at most once: a
`K_SINGLETON` pass of `parseIdentifierStep` never asks for a redirection
again; concretely, the line `function Foo.bar` emits exactly one tag, of
kind `K_SINGLETON`, named `bar` (the identifier after the dot). -/
theorem method_dot_singleton_reparse :
  (∀ cs : List Char,
      ∃ k name rest, parseIdentifierStep K_SINGLETON cs = idStep.ok k name rest)
  ∧ findJuliaTags [("function Foo.bar").toList] =
      ⟨[("bar").toList], false, [⟨("bar").toList, K_SINGLETON, []⟩]⟩ :=
  ⟨fun cs => parseIdentifierStep_no_redir K_SINGLETON (by decide) cs, by decide⟩

/-- C6 amended: for the describe and context kinds, the extracted name is
the maximal run of alphanumeric characters plus exactly the characters
space, comma, double-quote, dot, `#`, `_`, `?`, `!`, `=`, apostrophe, `/`,
`-` (the set *includes* the dot, so a dot does not terminate the name);
any character outside this set terminates the name. -/
theorem describe_context_name_charset :
  (∀ cs name : List Char,
      parseIdLoop K_DESCRIBE (also_ok K_DESCRIBE) cs name =
        loopResult.done
          (name ++ cs.takeWhile fun c => c.isAlphanum || charIsIn c (also_ok K_DESCRIBE))
          (cs.dropWhile fun c => c.isAlphanum || charIsIn c (also_ok K_DESCRIBE)))
  ∧ (∀ cs name : List Char,
      parseIdLoop K_CONTEXT (also_ok K_CONTEXT) cs name =
        loopResult.done
          (name ++ cs.takeWhile fun c => c.isAlphanum || charIsIn c (also_ok K_CONTEXT))
          (cs.dropWhile fun c => c.isAlphanum || charIsIn c (also_ok K_CONTEXT)))
  ∧ also_ok K_DESCRIBE =
      [' ', ',', '"', '.', '#', '_', '?', '!', '=', Char.ofNat 39, '/', '-']
  ∧ also_ok K_CONTEXT = also_ok K_DESCRIBE :=
  ⟨parseIdLoop_of_ne_method K_DESCRIBE (by decide) _,
   parseIdLoop_of_ne_method K_CONTEXT (by decide) _,
   by decide, by decide⟩

/-- C7: an `end` token reached in the remainder scan while the scope stack
is empty is silently ignored: the `canMatch` call has already advanced the
cursor past the token, the nesting list stays empty (the guarded pop is not
taken), and scanning continues with the rest of the branch chain right
after the token (`scanRestF` never emits a tag, so none is emitted);
likewise a whole line `end` scanned with an empty stack leaves the state
unchanged.  Stack depth is a list length, hence never negative. -/
theorem end_on_empty_stack_ignored :
  (∀ (fuel : Nat) (cs rest : List Char),
      canMatch cs (("end").toList) = some rest →
        scanRestF false (fuel + 1) false [] cs = scanRestF false fuel true [] rest)
  ∧ (∀ tags : List tagEntryInfo,
      processLine ⟨[], false, tags⟩ (("end").toList) = ⟨[], false, tags⟩) := by
  constructor
  · intro fuel cs rest h
    obtain ⟨hcs, hb⟩ := canMatch_eq_some h
    have he : ("end").toList = ['e', 'n', 'd'] := rfl
    rw [he] at hcs
    subst hcs
    show scanRestF false (fuel + 1) false [] ('e' :: 'n' :: 'd' :: rest) = _
    rw [scanRestF]
    have h1 : matchFirst [("begin").toList, ("do").toList] ('e' :: 'n' :: 'd' :: rest)
        = none := by
      show matchFirst [['b', 'e', 'g', 'i', 'n'], ['d', 'o']] _ = none
      rw [matchFirst, canMatch_head_ne _ _ _ _ (by decide), matchFirst,
        canMatch_head_ne _ _ _ _ (by decide), matchFirst]
    have h2 : canMatch ('e' :: 'n' :: 'd' :: rest) (("end").toList) = some rest := by
      rw [he]
      exact canMatch_append ['e', 'n', 'd'] rest hb
    rw [h1, h2]
    simp [isspace]
  · intro tags
    rfl

/-- Witness for C7: the hypotheses hold at the concrete line `end`. -/
theorem end_on_empty_stack_ignored_witness :
  canMatch (("end").toList) (("end").toList) = some []
  ∧ scanRestF false 1 false [] (("end").toList) = scanRestF false 0 true [] [] :=
  ⟨by decide, end_on_empty_stack_ignored.1 0 (("end").toList) [] (by decide)⟩

/-- C8: a balanced sequence of recognized scope openers and closers returns
the stack to its starting depth: every recognized opener (an anonymous
scope keyword, a `begin`/`do`, or a definition emission) performs one
`stringListAdd` (of the empty chunk for anonymous scopes, of the defined
name otherwise), and every recognized `end` performs the guarded pop
modelled by `applyEnds`; pushing any `names` onto any stack `st` and then
processing `names.length` many `end` tokens restores the depth of `st`. -/
theorem balanced_sequence_restores_depth :
  ∀ (st names : List (List Char)),
    (applyEnds names.length (names.foldl stringListAdd st)).length = st.length := by
  intro st names
  rw [applyEnds_length_of_le names.length (names.foldl stringListAdd st)
    (by rw [foldl_stringListAdd_length]; omega)]
  rw [foldl_stringListAdd_length]
  omega

end Julia
